import Mathlib

/-!
Verification of the spreadsheet_taxo pipeline.

Shallow embedding of the Python sources:
  * `src/utils.py`              — `get_max_tokens_for_step`, `get_prompt`
  * `src/main.py`               — the pipeline driver (keyword chunking, stage
                                  sequencing, sleeps)
  * `src/llm_caller.py`         — `run` (append-mode output) and the
                                  `create_*` prompt builders
  * `src/llm_base.py`           — `run` (append-mode output)
  * `src/workbook_extractor.py` — `remove_formatting`,
                                  `extract_hyperlinks_from_excel`,
                                  `add_hyperlinks_to_sheetjson`, the
                                  per-image / per-chart loops and the
                                  module-level extraction loop
  * `src/ignore/excel_extractor.py` — `ExcelExtractor.extract_all_files`
  * `src/validate_truncation_fix.py` — `validate_fix`

Python dictionaries are modelled as association lists with the usual
dict semantics (a key occurs at most once; update keeps the position of
an existing key, insertion appends).  Python strings are Lean `String`s
and `str.replace` / `"\n".join` are re-implemented character by
character with Python's semantics.
-/

namespace SpreadsheetTaxo

/-! ## Association lists as Python dicts -/

/-- Python `d.get(k)` / `k in d`: first binding of `k` in the dict. -/
def alistGet (m : List (String × β)) (k : String) : Option β :=
  match m with
  | [] => none
  | (k', v) :: rest => if k' = k then some v else alistGet rest k

/-- Python `k in d`. -/
def hasKey (m : List (String × β)) (k : String) : Bool :=
  (alistGet m k).isSome

/-- Python `del d[k]` (also a no-op when the key is absent, matching the
`if key in d: del d[key]` idiom used throughout the source). -/
def delKey (m : List (String × β)) (k : String) : List (String × β) :=
  m.filter (fun p => p.1 ≠ k)

/-- Python `d[k] = v`: replace in place when the key exists, append otherwise. -/
def setKey (m : List (String × β)) (k : String) (v : β) : List (String × β) :=
  if hasKey m k then m.map (fun p => if p.1 = k then (k, v) else p)
  else m ++ [(k, v)]

/-! ## Python string helpers -/

/-- Python `"\n".join(xs)` for a list of strings. -/
def joinNL (xs : List String) : String :=
  String.intercalate "\n" xs

/-- Python `"\n".join(s)` for a string `s`: iterating a `str` yields its
characters, so this puts a newline between every pair of adjacent
characters of `s`. -/
def joinNLStr (s : String) : String :=
  String.intercalate "\n" (s.data.map (fun c => String.mk [c]))

/-- Python `s.replace(pat, rep)` on character lists: left-to-right,
non-overlapping, all occurrences.  The sources only call it with
non-empty literal patterns, so every recursive call consumes at least
one character; `fuel` is any bound on the input length. -/
def replaceChars (pat rep : List Char) : Nat → List Char → List Char
  | _, [] => []
  | 0, l => l
  | fuel + 1, c :: cs =>
    if pat ≠ [] ∧ pat.isPrefixOf (c :: cs) then
      rep ++ replaceChars pat rep fuel ((c :: cs).drop pat.length)
    else
      c :: replaceChars pat rep fuel cs

/-- Python `s.replace(pat, rep)`. -/
def pyReplace (s pat rep : String) : String :=
  String.mk (replaceChars pat.data rep.data s.data.length s.data)

/-! ## `src/utils.py` — `get_max_tokens_for_step` -/

/-- The `step_token_limits` dict of `get_max_tokens_for_step`. -/
def step_token_limits : List (String × Nat) :=
  [("step2", 1000), ("step3", 2000), ("step4", 2000),
   ("step5", 3000), ("step6", 4000), ("system", 500)]

/-- `utils.get_max_tokens_for_step`: dict lookup with default 2000. -/
def get_max_tokens_for_step (step : String) : Nat :=
  (alistGet step_token_limits step).getD 2000

/-- `validate_truncation_fix.validate_fix`: the condition it checks on
the step-5 and step-6 token limits. -/
def validate_fix : Bool :=
  3000 ≤ get_max_tokens_for_step "step5" ∧
    4000 ≤ get_max_tokens_for_step "step6"

/-! ## `src/utils.py` — `get_prompt` -/

/-- The single left-to-right pass of `re.sub(r'\[([^\]]+)\]', repl, prompt)`:
at each position, a match needs `[`, then a non-empty run of characters
other than `]`, then `]`; the replacement is the detail value when the
key is present and the original `[key]` text otherwise.  Replacement
text is emitted verbatim and never rescanned. -/
def fillPlaceholders (details : List (String × String)) :
    Nat → List Char → List Char
  | _, [] => []
  | 0, l => l
  | fuel + 1, c :: cs =>
    if c = '[' then
      let content := cs.takeWhile (fun x => x ≠ ']')
      if content ≠ [] ∧ content.length < cs.length then
        (match alistGet details (String.mk content) with
         | some v => v.data
         | none => '[' :: (content ++ [']'])) ++
          fillPlaceholders details fuel (cs.drop (content.length + 1))
      else
        '[' :: fillPlaceholders details fuel cs
    else
      c :: fillPlaceholders details fuel cs

/-- `utils.get_prompt`, with the parsed `prompts.yaml` and
`prompt_details.yaml` dicts passed explicitly. -/
def get_prompt (prompts details : List (String × String)) (step : String) :
    String :=
  let prompt := (alistGet prompts step).getD "Prompt not found."
  String.mk (fillPlaceholders details prompt.data.length prompt.data)

/-! ## `src/main.py` — keyword chunking and the driver trace -/

def KEYWORD_CHUNK_SIZE : Nat := 100

/-- The flags at the top of `main.py`. -/
def RUN_STEP2 : Bool := false
def RUN_STEP3 : Bool := true
def RUN_STEP4 : Bool := true
def RUN_STEP5 : Bool := true
def RUN_STEP6 : Bool := true

/-- The chunk the step-3 loop body selects at start index `i`:
`keywords[i:]` when `i + KEYWORD_CHUNK_SIZE > len(keywords)`, else
`keywords[i:i + KEYWORD_CHUNK_SIZE]`. -/
def chunkAt (keywords : List String) (i : Nat) : List String :=
  if i + KEYWORD_CHUNK_SIZE > keywords.length then
    keywords.drop i
  else
    (keywords.take (i + KEYWORD_CHUNK_SIZE)).drop i

/-- `for i in range(0, len(keywords), KEYWORD_CHUNK_SIZE)` of the step-3
loop, collecting the chunk selected at each index. -/
def step3Loop (keywords : List String) (i : Nat) : List (List String) :=
  if i < keywords.length then
    chunkAt keywords i :: step3Loop keywords (i + KEYWORD_CHUNK_SIZE)
  else
    []
termination_by keywords.length - i
decreasing_by simp only [KEYWORD_CHUNK_SIZE]; omega

/-- The list of chunks the step-3 loop iterates over. -/
def step3Chunks (keywords : List String) : List (List String) :=
  step3Loop keywords 0

/-- `keywords_sample` as computed in `main.py`. -/
def keywordsSample (keywords : List String) : String :=
  if keywords.length > KEYWORD_CHUNK_SIZE then
    joinNL (keywords.take KEYWORD_CHUNK_SIZE)
  else
    joinNL keywords

/-- The observable actions of the `main.py` driver, in program order. -/
inductive Event where
  | callKeywords (folder : String)
  | callCodes (chunk : List String)
  | callThemes
  | callConcepts
  | callModel
  | sleep (secs : Nat)
deriving DecidableEq, Repr

/-- The sequence of stage calls and sleeps `main.py` performs, as a
function of the run flags, the input folders and the keyword lines. -/
def mainTrace (run2 run3 run4 run5 run6 : Bool)
    (folders keywords : List String) : List Event :=
  (if run2 then
     (folders.map (fun f => [Event.callKeywords f, Event.sleep 30])).flatten
   else []) ++
  (if run3 then
     ((step3Chunks keywords).map
       (fun c => [Event.callCodes c, Event.sleep 30])).flatten
   else []) ++
  (if run4 then [Event.callThemes] else []) ++
  (if run5 then [Event.callConcepts] else []) ++
  (if run6 then [Event.callModel] else [])

/-- The trace of `main.py` with the flag values committed in the source. -/
def mainTraceActual (folders keywords : List String) : List Event :=
  mainTrace RUN_STEP2 RUN_STEP3 RUN_STEP4 RUN_STEP5 RUN_STEP6
    folders keywords

def isStageCall : Event → Bool
  | Event.callKeywords _ => true
  | Event.callCodes _ => true
  | Event.callThemes => true
  | Event.callConcepts => true
  | Event.callModel => true
  | Event.sleep _ => false

def isCallCodes : Event → Bool
  | Event.callCodes _ => true
  | _ => false

/-- Helper for `callGaps`: after a stage call has been seen, accumulate
the events since that call; on the next call emit the accumulated gap.
The segment after the last call is not a gap and is discarded. -/
def gapsAux (acc : List Event) : List Event → List (List Event)
  | [] => []
  | e :: es =>
    if isStageCall e then acc.reverse :: gapsAux [] es
    else gapsAux (e :: acc) es

/-- The segments strictly between consecutive stage calls of a trace
(leading and trailing non-call events are not between two calls). -/
def callGaps (es : List Event) : List (List Event) :=
  match es.dropWhile (fun x => ¬ isStageCall x) with
  | [] => []
  | _ :: rest => gapsAux [] rest

/-! ## `src/llm_base.py` / `src/llm_caller.py` — append-mode `run` -/

/-- Open modes of Python `open`: `"a"` starts writing after the existing
content, `"w"` truncates. -/
inductive OpenMode where
  | append
  | write
deriving DecidableEq

/-- The file content seen by the opened handle before the first write. -/
def openFile (mode : OpenMode) (prior : String) : String :=
  match mode with
  | OpenMode.append => prior
  | OpenMode.write => ""

/-- The loop of `run_variant` (identical in `llm_base.py` and
`llm_caller.py`): for each result returned by `llm_call`, write
`f"{content}\n"` to the handle. -/
def run_variant_writes (responses : List String) : String :=
  String.join (responses.map (fun r => r ++ "\n"))

/-- `llm_base.run`: opens `output_file` with mode `"a"` and lets
`run_variant` write each response followed by a newline.  `prior` is the
file's content before the call, `responses` the contents of the results
`llm_call` yields. -/
def llm_base_run (prior : String) (responses : List String) : String :=
  openFile OpenMode.append prior ++ run_variant_writes responses

/-- `llm_caller.run`: same append-mode open and per-response writes. -/
def llm_caller_run (prior : String) (responses : List String) : String :=
  openFile OpenMode.append prior ++ run_variant_writes responses

/-! ## `src/llm_caller.py` — the stage prompt builders -/

/-- `llm_caller.create_codes` prompt: `keywords` is a list here, joined
line by line; `[keywords]` and `[data]` are substituted. -/
def createCodesPrompt (template : String) (keywords : List String)
    (data_sample : String) : String :=
  pyReplace (pyReplace template "[keywords]" (joinNL keywords ++ "\n"))
    "[data]" (data_sample ++ "\n")

/-- `llm_caller.create_themes` prompt: `codes` is a list, but
`keywords_sample` is the string built in `main.py`, so
`"\n".join(keywords_sample)` iterates its characters. -/
def createThemesPrompt (template : String) (codes : List String)
    (keywords_sample : String) : String :=
  let ks := joinNLStr keywords_sample ++ "\n"
  let cs := joinNL codes ++ "\n"
  pyReplace (pyReplace template "[codes]" cs) "[keywords]" ks

/-- `llm_caller.create_concepts` prompt. -/
def createConceptsPrompt (template : String) (themes codes : List String)
    (keywords_sample : String) : String :=
  let ts := joinNL themes ++ "\n"
  let ks := joinNLStr keywords_sample ++ "\n"
  let cs := joinNL codes ++ "\n"
  pyReplace (pyReplace (pyReplace template "[codes]" cs) "[keywords]" ks)
    "[themes]" ts

/-- `llm_caller.create_conceptual_model` prompt (same shape as
`create_concepts` with the step-6 template). -/
def createConceptualModelPrompt (template : String)
    (themes codes : List String) (keywords_sample : String) : String :=
  let ts := joinNL themes ++ "\n"
  let ks := joinNLStr keywords_sample ++ "\n"
  let cs := joinNL codes ++ "\n"
  pyReplace (pyReplace (pyReplace template "[codes]" cs) "[keywords]" ks)
    "[themes]" ts

/-! ## Error handling in the extraction drivers -/

/-- The module-level loop at the bottom of `workbook_extractor.py`:
`workbook_to_sheetjson` / `extract_images_from_excel` /
`extract_chart_images` run for each file with no surrounding handler.
`process` is the per-file work, which either succeeds or raises.  The
result records which files were attempted, paired with the uncaught
exception when one occurred (at which point the loop stopped). -/
def moduleExtractionLoop (process : α → Except ε Unit) :
    List α → List α × Option ε
  | [] => ([], none)
  | f :: fs =>
    match process f with
    | Except.ok _ =>
      let r := moduleExtractionLoop process fs
      (f :: r.1, r.2)
    | Except.error e => ([f], some e)

/-- `ExcelExtractor.extract_all_files` (`src/ignore/excel_extractor.py`):
each file is processed inside `try/except Exception`, the error is
printed and the loop continues.  Each file is paired with the error it
raised, if any. -/
def extract_all_files (process : α → Except ε Unit) (files : List α) :
    List (α × Option ε) :=
  files.map (fun f =>
    match process f with
    | Except.ok _ => (f, none)
    | Except.error e => (f, some e))

/-- The per-image loop of `extract_images_from_excel`
(`workbook_extractor.py` lines 381-424): each image's extraction runs in
a `try/except`; a failure is printed and the loop goes on with the next
image.  `images` is the concatenation, sheet by sheet, of the images the
workbook holds; `process` either yields the extracted image info or
raises. -/
def imagesLoop (process : β → Except ε γ) : List β → List γ
  | [] => []
  | img :: rest =>
    match process img with
    | Except.ok v => v :: imagesLoop process rest
    | Except.error _ => imagesLoop process rest

/-- The per-sheet loop of `extract_chart_images` (`workbook_extractor.py`
lines 443-460): exporting the charts of one sheet runs in a
`try/except ... continue`; a failure moves on to the next sheet. -/
def chartSheetsLoop (process : σ → Except ε γ) : List σ → List γ
  | [] => []
  | sheet :: rest =>
    match process sheet with
    | Except.ok v => v :: chartSheetsLoop process rest
    | Except.error _ => chartSheetsLoop process rest

/-- The successful outcome of a fallible computation, if any. -/
def exceptToOption : Except ε γ → Option γ
  | Except.ok v => some v
  | Except.error _ => none

/-! ## `src/workbook_extractor.py` — the sheetjson model -/

/-- JSON-like values, as produced by the sheetjson library. -/
inductive JVal where
  | str (s : String)
  | num (n : Int)
  | boolean (b : Bool)
  | null
  | arr (vs : List JVal)
  | obj (fields : List (String × JVal))

/-- A cell of a sheetjson worksheet: a dict of properties
(`value`, `Format`, `font`, ...). -/
abbrev Cell := List (String × JVal)

/-- A chart / named item / table of a sheetjson worksheet: a dict. -/
abbrev JObj := List (String × JVal)

/-- One worksheet of a sheetjson document.  Fields the extractor touches
are explicit; each is optional because the corresponding key may be
absent from the dict. -/
structure Worksheet where
  worksheetProperties : Option JVal
  cells : Option (List (String × Cell))
  charts : Option (List JObj)
  namedItems : Option (List JObj)
  tables : Option (List JObj)
  hyperlinks_summary : Option (Nat × List String)

/-- A sheetjson document: the top-level dict with its `meta` entry and
its `worksheets` dict. -/
structure SheetJsonDoc where
  meta : Option JVal
  worksheets : List (String × Worksheet)

/-- The `formatting_keys` list of `remove_formatting`. -/
def formatting_keys : List String :=
  ["style", "font", "fill", "border", "alignment",
   "number_format", "protection"]

def chart_formatting_keys : List String := ["style", "plotArea", "chartArea"]

def functional_props : List String :=
  ["position", "visible", "numberFormat", "minimum", "maximum",
   "majorUnit", "minorUnit", "scaleType", "categoryType"]

def series_formatting_keys : List String :=
  ["format", "marker", "line", "fill", "smooth", "dataLabels",
   "trendline", "errorBars", "pictureOptions"]

def essential_series_props : List String :=
  ["idx", "order", "title", "categories", "values",
   "xValues", "yValues", "bubbleSize"]

/-- `essential = {}; for prop in keep: if prop in d: essential[prop] = d[prop]`. -/
def subsetObj (keep : List String) (o : JObj) : JObj :=
  keep.foldl
    (fun acc k =>
      match alistGet o k with
      | some v => acc ++ [(k, v)]
      | none => acc)
    []

/-- Per-cell part of `remove_formatting`: delete `Format`, then every
key of `formatting_keys`. -/
def cleanCell (cell : Cell) : Cell :=
  formatting_keys.foldl delKey (delKey cell "Format")

/-- Per-chart part of `remove_formatting` (lines 52-125). -/
def cleanChart (chart : JObj) : JObj :=
  let chart := chart_formatting_keys.foldl delKey chart
  let chart :=
    match alistGet chart "legend" with
    | some (JVal.obj legend) =>
      setKey chart "legend" (JVal.obj (subsetObj ["position", "visible"] legend))
    | _ => chart
  let chart :=
    match alistGet chart "title" with
    | some (JVal.obj title) =>
      setKey chart "title" (JVal.obj (subsetObj ["text", "formula"] title))
    | _ => chart
  let chart :=
    match alistGet chart "axes" with
    | some (JVal.obj axes) =>
      setKey chart "axes" (JVal.obj (axes.map (fun p =>
        match p.2 with
        | JVal.obj a => (p.1, JVal.obj (subsetObj functional_props a))
        | v => (p.1, v))))
    | _ => chart
  match alistGet chart "series" with
  | some (JVal.arr series) =>
    setKey chart "series" (JVal.arr (series.map (fun s =>
      match s with
      | JVal.obj o =>
        JVal.obj (subsetObj essential_series_props
          (series_formatting_keys.foldl delKey o))
      | v => v)))
  | _ => chart

/-- Per-table part of `remove_formatting` (lines 138-152): delete the
three fixed keys, then every key starting with `show` or `highlight`. -/
def cleanTable (t : JObj) : JObj :=
  let t := ["tableStyleInfo", "format", "predefinedTableStyle"].foldl delKey t
  t.filter (fun p =>
    ¬ ("show".isPrefixOf p.1 ∨ "highlight".isPrefixOf p.1))

/-- The per-worksheet body of `remove_formatting`'s main loop. -/
def processWorksheet (ws : Worksheet) : Worksheet :=
  let ws := { ws with worksheetProperties := none }
  let ws := { ws with
    cells := ws.cells.map (fun (cs : List (String × Cell)) =>
      (cs.map (fun (p : String × Cell) => (p.1, cleanCell p.2))).filter
        (fun p => ¬ (p.2.isEmpty ∨ ¬ hasKey p.2 "value"))) }
  let ws := { ws with
    charts := ws.charts.map (fun (l : List JObj) => l.map cleanChart) }
  let ws := { ws with
    namedItems := ws.namedItems.map (fun (l : List JObj) =>
      l.map (fun ni => delKey ni "format")) }
  { ws with
    tables := ws.tables.map (fun (l : List JObj) => l.map cleanTable) }

/-- `workbook_extractor.remove_formatting`. -/
def remove_formatting (sj : SheetJsonDoc) : SheetJsonDoc :=
  { meta := none,
    worksheets := sj.worksheets.map (fun p => (p.1, processWorksheet p.2)) }

/-! ## `src/workbook_extractor.py` — hyperlinks -/

/-- A cell of an openpyxl workbook as seen by the hyperlink scan:
its coordinate and, when a hyperlink object with a `target` attribute is
attached, that target. -/
structure WbCell where
  coordinate : String
  hyperlink : Option String

/-- An openpyxl worksheet: its name and the cells the
`range(1, max_row+1) × range(1, max_col+1)` scan visits, in scan order. -/
structure WbSheet where
  name : String
  cells : List WbCell

/-- The `sheet_hyperlinks` dict built for one sheet by
`extract_hyperlinks_from_excel`: coordinate → target, in scan order. -/
def sheetHyperlinks (s : WbSheet) : List (String × String) :=
  s.cells.filterMap (fun c => c.hyperlink.map (fun t => (c.coordinate, t)))

/-- `workbook_extractor.extract_hyperlinks_from_excel`: one entry per
sheet that has at least one hyperlinked cell. -/
def extract_hyperlinks_from_excel (wb : List WbSheet) :
    List (String × List (String × String)) :=
  wb.filterMap (fun s =>
    if (sheetHyperlinks s).isEmpty then none
    else some (s.name, sheetHyperlinks s))

/-- One iteration of the inner loop of `add_hyperlinks_to_sheetjson`:
for `(cell_ref, target)`, create the `cells` dict and the cell when
missing, then set the cell's `hyperlink` entry. -/
def addHyperlinkToCell (ws : Worksheet) (p : String × String) : Worksheet :=
  let cells := ws.cells.getD []
  let cell := (alistGet cells p.1).getD []
  let cell := setKey cell "hyperlink" (JVal.obj [("target", JVal.str p.2)])
  { ws with cells := some (setKey cells p.1 cell) }

/-- The inner loop of `add_hyperlinks_to_sheetjson` over one sheet's
hyperlinks. -/
def addSheetHyperlinks (ws : Worksheet) (hs : List (String × String)) :
    Worksheet :=
  hs.foldl addHyperlinkToCell ws

/-- `workbook_extractor.add_hyperlinks_to_sheetjson`: worksheets of the
sheetjson whose name appears in the extracted hyperlink data get their
cells annotated and a `hyperlinks_summary` entry; all others are left
untouched. -/
def add_hyperlinks_to_sheetjson (sj : SheetJsonDoc) (wb : List WbSheet) :
    SheetJsonDoc :=
  let hd := extract_hyperlinks_from_excel wb
  { sj with
    worksheets := sj.worksheets.map (fun p =>
      match alistGet hd p.1 with
      | none => p
      | some hs =>
        let ws := addSheetHyperlinks p.2 hs
        (p.1,
          { ws with
            hyperlinks_summary := some (hs.length, hs.map Prod.fst) })) }

/-- A one-worksheet document (worksheet `S`, no cells dict) used to
exercise the hyperlink injection on concrete data. -/
def sampleDoc : SheetJsonDoc :=
  ⟨none, [("S", ⟨none, none, none, none, none, none⟩)]⟩

/-- A workbook whose sheet `S` has a single hyperlinked cell `A1`. -/
def sampleWb : List WbSheet := [⟨"S", [⟨"A1", some "u"⟩]⟩]

/-! ## Chunking lemmas -/

theorem chunkAt_eq (kw : List String) (i : Nat) :
    chunkAt kw i = (kw.drop i).take KEYWORD_CHUNK_SIZE := by
  unfold chunkAt
  split
  · rename_i h
    rw [List.take_of_length_le (by simp only [List.length_drop]; omega)]
  · exact (List.take_drop i KEYWORD_CHUNK_SIZE kw).symm

theorem step3Loop_eq_nil (kw : List String) (i : Nat)
    (h : ¬ i < kw.length) : step3Loop kw i = [] := by
  unfold step3Loop
  rw [if_neg h]

theorem step3Loop_eq_cons (kw : List String) (i : Nat)
    (h : i < kw.length) :
    step3Loop kw i = chunkAt kw i :: step3Loop kw (i + KEYWORD_CHUNK_SIZE) := by
  conv_lhs => rw [step3Loop]
  rw [if_pos h]

theorem step3Loop_flatten (kw : List String) (fuel : Nat) :
    ∀ i, kw.length ≤ i + fuel → (step3Loop kw i).flatten = kw.drop i := by
  induction fuel with
  | zero =>
    intro i hi
    rw [step3Loop_eq_nil kw i (by omega), List.drop_eq_nil_of_le (by omega)]
    rfl
  | succ fuel ih =>
    intro i hi
    by_cases h : i < kw.length
    · rw [step3Loop_eq_cons kw i h, List.flatten_cons,
        ih (i + KEYWORD_CHUNK_SIZE)
          (by show kw.length ≤ i + 100 + fuel; omega),
        chunkAt_eq]
      have hdd : kw.drop (i + KEYWORD_CHUNK_SIZE) =
          (kw.drop i).drop KEYWORD_CHUNK_SIZE := by
        rw [List.drop_drop]
      rw [hdd, List.take_append_drop]
    · rw [step3Loop_eq_nil kw i h, List.drop_eq_nil_of_le (by omega)]
      rfl

theorem step3Chunks_flatten (kw : List String) :
    (step3Chunks kw).flatten = kw := by
  have h := step3Loop_flatten kw kw.length 0 (by omega)
  simpa [step3Chunks] using h

theorem step3Loop_mem_length (kw : List String) (fuel : Nat) :
    ∀ i, kw.length ≤ i + fuel → ∀ c ∈ step3Loop kw i,
      1 ≤ c.length ∧ c.length ≤ KEYWORD_CHUNK_SIZE := by
  induction fuel with
  | zero =>
    intro i hi c hc
    rw [step3Loop_eq_nil kw i (by omega)] at hc
    exact absurd hc (List.not_mem_nil c)
  | succ fuel ih =>
    intro i hi c hc
    by_cases h : i < kw.length
    · rw [step3Loop_eq_cons kw i h] at hc
      rcases List.mem_cons.mp hc with rfl | hc
      · rw [chunkAt_eq]
        simp only [List.length_take, List.length_drop]
        have hK : KEYWORD_CHUNK_SIZE = 100 := rfl
        rw [hK]
        omega
      · exact ih (i + KEYWORD_CHUNK_SIZE)
          (by show kw.length ≤ i + 100 + fuel; omega) c hc
    · rw [step3Loop_eq_nil kw i h] at hc
      exact absurd hc (List.not_mem_nil c)

theorem step3Loop_dropLast (kw : List String) (fuel : Nat) :
    ∀ i, kw.length ≤ i + fuel → ∀ c ∈ (step3Loop kw i).dropLast,
      c.length = KEYWORD_CHUNK_SIZE := by
  induction fuel with
  | zero =>
    intro i hi c hc
    rw [step3Loop_eq_nil kw i (by omega)] at hc
    exact absurd hc (List.not_mem_nil c)
  | succ fuel ih =>
    intro i hi c hc
    by_cases h : i < kw.length
    · rw [step3Loop_eq_cons kw i h] at hc
      by_cases hr : step3Loop kw (i + KEYWORD_CHUNK_SIZE) = []
      · rw [hr, List.dropLast_single] at hc
        exact absurd hc (List.not_mem_nil c)
      · have hlt : i + KEYWORD_CHUNK_SIZE < kw.length := by
          by_contra hnot
          exact hr (step3Loop_eq_nil kw (i + KEYWORD_CHUNK_SIZE) hnot)
        rw [List.dropLast_cons_of_ne_nil hr] at hc
        rcases List.mem_cons.mp hc with rfl | hc
        · rw [chunkAt_eq]
          simp only [List.length_take, List.length_drop]
          have hK : KEYWORD_CHUNK_SIZE = 100 := rfl
          rw [hK] at hlt ⊢
          omega
        · exact ih (i + KEYWORD_CHUNK_SIZE)
            (by show kw.length ≤ i + 100 + fuel; omega) c hc
    · rw [step3Loop_eq_nil kw i h] at hc
      exact absurd hc (List.not_mem_nil c)

theorem filter_codes_flatten (l : List (List String)) :
    ((l.map (fun c => [Event.callCodes c, Event.sleep 30])).flatten).filter
        isCallCodes = l.map Event.callCodes := by
  induction l with
  | nil => rfl
  | cons c cs ih =>
    simp only [List.map_cons, List.flatten_cons, List.filter_append]
    rw [ih]
    rfl

/-! ## C9 — guarded branches equal plain slicing -/

/-- C9: the length-guarded branches of `main.py` are equivalent to plain
slicing: `keywords_sample` is always the newline-join of
`keywords[:100]`, and the chunk selected at any start index `i` is
always `keywords[i:i+100]`, whichever branch of the guards is taken. -/
theorem c9_guards_equal_plain_slicing (keywords : List String) (i : Nat) :
    keywordsSample keywords = joinNL (keywords.take KEYWORD_CHUNK_SIZE) ∧
    chunkAt keywords i = (keywords.take (i + KEYWORD_CHUNK_SIZE)).drop i := by
  constructor
  · unfold keywordsSample
    split
    · rfl
    · rename_i h
      rw [List.take_of_length_le (by omega)]
  · unfold chunkAt
    split
    · rename_i h
      rw [List.take_of_length_le (by omega)]
    · rfl

/-! ## C8 — token limits -/

/-- C8: `get_max_tokens_for_step` returns 1000/2000/2000/3000/4000/500
for `step2`..`step6`/`system` and 2000 for every other string, and the
condition `validate_fix` checks (step5 ≥ 3000 and step6 ≥ 4000) holds. -/
theorem c8_token_limits (s : String)
    (hs : s ∉ ["step2", "step3", "step4", "step5", "step6", "system"]) :
    get_max_tokens_for_step "step2" = 1000 ∧
    get_max_tokens_for_step "step3" = 2000 ∧
    get_max_tokens_for_step "step4" = 2000 ∧
    get_max_tokens_for_step "step5" = 3000 ∧
    get_max_tokens_for_step "step6" = 4000 ∧
    get_max_tokens_for_step "system" = 500 ∧
    get_max_tokens_for_step s = 2000 ∧
    validate_fix = true := by
  refine ⟨by decide, by decide, by decide, by decide, by decide, by decide,
    ?_, by decide⟩
  have h2 : "step2" ≠ s := by rintro rfl; exact hs (by decide)
  have h3 : "step3" ≠ s := by rintro rfl; exact hs (by decide)
  have h4 : "step4" ≠ s := by rintro rfl; exact hs (by decide)
  have h5 : "step5" ≠ s := by rintro rfl; exact hs (by decide)
  have h6 : "step6" ≠ s := by rintro rfl; exact hs (by decide)
  have hy : "system" ≠ s := by rintro rfl; exact hs (by decide)
  simp [get_max_tokens_for_step, step_token_limits, alistGet,
    h2, h3, h4, h5, h6, hy]

/-- Witness for C8 at the concrete other-string `"step7"`. -/
theorem c8_token_limits_witness :
    ("step7" : String) ∉
        ["step2", "step3", "step4", "step5", "step6", "system"] ∧
    (get_max_tokens_for_step "step2" = 1000 ∧
     get_max_tokens_for_step "step3" = 2000 ∧
     get_max_tokens_for_step "step4" = 2000 ∧
     get_max_tokens_for_step "step5" = 3000 ∧
     get_max_tokens_for_step "step6" = 4000 ∧
     get_max_tokens_for_step "system" = 500 ∧
     get_max_tokens_for_step "step7" = 2000 ∧
     validate_fix = true) :=
  ⟨by decide, c8_token_limits "step7" (by decide)⟩

/-! ## C4 — append-mode output files -/

/-- C4: both `llm_base.run` and `llm_caller.run` open the output file in
append mode, so after a run the file holds the prior content unchanged
followed by each newly produced response terminated by a newline;
nothing is truncated or overwritten. -/
theorem c4_run_appends (prior : String) (responses : List String) :
    llm_base_run prior responses =
      prior ++ String.join (responses.map (fun r => r ++ "\n")) ∧
    llm_caller_run prior responses =
      prior ++ String.join (responses.map (fun r => r ++ "\n")) :=
  ⟨rfl, rfl⟩

/-! ## C2 — stage 4-6 placeholder substitution -/

/-- C2: at the concrete input `codes = ["c"]`, `keywords_sample = "ab"`,
the `create_themes` prompt builder substitutes `[codes]` as described
but replaces `[keywords]` with `"a\nb\n"`, not with the keywords-sample
text `"ab"` followed by a newline: `"\n".join(keywords_sample)` iterates
the characters of the sample string. -/
theorem c2_create_themes_divergence :
    createThemesPrompt "T:[codes]|[keywords]" ["c"] "ab" = "T:c\n|a\nb\n" ∧
    ("T:c\n|a\nb\n" : String) ≠ "T:c\n|ab\n" :=
  ⟨by decide, by decide⟩

/-! ## C1 — step-3 chunking -/

/-- C1: for a non-empty keyword list, the step-3 driver partitions it
into consecutive chunks: every chunk but the last has exactly
`KEYWORD_CHUNK_SIZE = 100` keywords, the last has 1 to 100, their
concatenation is the original list, and the driver issues exactly one
`create_codes` call per chunk, in order. -/
theorem c1_step3_chunking (folders keywords : List String)
    (hne : keywords ≠ []) :
    (∀ c ∈ (step3Chunks keywords).dropLast,
        c.length = KEYWORD_CHUNK_SIZE) ∧
    (∀ c, (step3Chunks keywords).getLast? = some c →
        1 ≤ c.length ∧ c.length ≤ KEYWORD_CHUNK_SIZE) ∧
    (step3Chunks keywords).flatten = keywords ∧
    step3Chunks keywords ≠ [] ∧
    (mainTraceActual folders keywords).filter isCallCodes =
      (step3Chunks keywords).map Event.callCodes := by
  have hpos : 0 < keywords.length := List.length_pos.mpr hne
  refine ⟨?_, ?_, step3Chunks_flatten keywords, ?_, ?_⟩
  · exact step3Loop_dropLast keywords keywords.length 0 (by omega)
  · intro c hc
    exact step3Loop_mem_length keywords keywords.length 0 (by omega) c
      (List.mem_of_getLast?_eq_some hc)
  · rw [step3Chunks, step3Loop_eq_cons keywords 0 hpos]
    exact List.cons_ne_nil _ _
  · have hfc := filter_codes_flatten (step3Chunks keywords)
    have ht : List.filter isCallCodes [Event.callThemes] = [] := rfl
    have hco : List.filter isCallCodes [Event.callConcepts] = [] := rfl
    have hm : List.filter isCallCodes [Event.callModel] = [] := rfl
    simp [mainTraceActual, mainTrace, RUN_STEP2, RUN_STEP3, RUN_STEP4,
      RUN_STEP5, RUN_STEP6, List.filter_append, hfc, ht, hco, hm]
    exact ⟨rfl, rfl, rfl⟩

/-- Witness for C1 at the concrete keyword list `["a"]`. -/
theorem c1_step3_chunking_witness :
    (["a"] : List String) ≠ [] ∧
    ((∀ c ∈ (step3Chunks ["a"]).dropLast,
        c.length = KEYWORD_CHUNK_SIZE) ∧
     (∀ c, (step3Chunks ["a"]).getLast? = some c →
        1 ≤ c.length ∧ c.length ≤ KEYWORD_CHUNK_SIZE) ∧
     (step3Chunks ["a"]).flatten = ["a"] ∧
     step3Chunks ["a"] ≠ [] ∧
     (mainTraceActual [] ["a"]).filter isCallCodes =
       (step3Chunks ["a"]).map Event.callCodes) :=
  ⟨by decide, c1_step3_chunking [] ["a"] (by decide)⟩

/-! ## C7 — sleeps between stage calls -/

theorem gapsAux_noncall (acc : List Event) (e : Event)
    (he : isStageCall e = false) (es : List Event) :
    gapsAux acc (e :: es) = gapsAux (e :: acc) es := by
  simp [gapsAux, he]

theorem gapsAux_call (acc : List Event) (e : Event)
    (he : isStageCall e = true) (es : List Event) :
    gapsAux acc (e :: es) = acc.reverse :: gapsAux [] es := by
  simp [gapsAux, he]

theorem callGaps_cons_call (e : Event) (he : isStageCall e = true)
    (es : List Event) : callGaps (e :: es) = gapsAux [] es := by
  simp [callGaps, List.dropWhile_cons, he]

/-- The trace section produced by an enabled step 3 followed by the
stage 4-6 calls: one `[sleep 30]` gap per chunk, then two empty gaps. -/
theorem callGaps_codes_trace (l : List (List String)) :
    callGaps ((l.map (fun c => [Event.callCodes c, Event.sleep 30])).flatten
        ++ [Event.callThemes, Event.callConcepts, Event.callModel]) =
      List.replicate l.length [Event.sleep 30] ++ [[], []] := by
  induction l with
  | nil => decide
  | cons c cs ih =>
    simp only [List.map_cons, List.flatten_cons, List.cons_append,
      List.nil_append, List.append_assoc, List.length_cons,
      List.replicate_succ]
    rw [callGaps_cons_call (Event.callCodes c) rfl]
    have hcons : ∃ e T, isStageCall e = true ∧
        (cs.map (fun c => [Event.callCodes c, Event.sleep 30])).flatten ++
          [Event.callThemes, Event.callConcepts, Event.callModel] =
          e :: T := by
      cases cs with
      | nil => exact ⟨Event.callThemes, [Event.callConcepts, Event.callModel],
          rfl, rfl⟩
      | cons c' cs' =>
        exact ⟨Event.callCodes c',
          Event.sleep 30 ::
            ((cs'.map (fun x => [Event.callCodes x, Event.sleep 30])).flatten
              ++ [Event.callThemes, Event.callConcepts, Event.callModel]),
          rfl, rfl⟩
    obtain ⟨e, T, he, hT⟩ := hcons
    rw [hT]
    rw [gapsAux_noncall [] (Event.sleep 30) rfl, gapsAux_call _ e he]
    rw [hT] at ih
    rw [callGaps_cons_call e he] at ih
    rw [ih]
    rfl

/-- C7 counterexample: on the concrete run with keyword list `["k"]`
(and no step-2 folders), the driver trace has gaps with no sleep at all
between consecutive stage calls — `create_themes`, `create_concepts`
and `create_conceptual_model` are issued back to back — refuting the
claim that exactly one 30-second sleep separates every two consecutive
stage calls. -/
theorem c7_sleep_between_all_calls_counterexample :
    ¬ (∀ g ∈ callGaps (mainTraceActual [] ["k"]), g = [Event.sleep 30]) := by
  intro hall
  have hc : step3Chunks ["k"] = [["k"]] := by
    simp [step3Chunks, step3Loop, chunkAt, KEYWORD_CHUNK_SIZE]
  have h1 : callGaps (mainTraceActual [] ["k"]) =
      [[Event.sleep 30], [], []] := by
    simp only [mainTraceActual, mainTrace, RUN_STEP2, RUN_STEP3, RUN_STEP4,
      RUN_STEP5, RUN_STEP6, if_true, if_false, List.nil_append, hc]
    decide
  have h2 := hall [] (by rw [h1]; simp)
  simp at h2

/-- C7 amended: a 30-second sleep immediately follows each per-chunk
`create_codes` call (so consecutive step-2/step-3 calls are separated by
exactly one sleep), but the `create_themes`, `create_concepts` and
`create_conceptual_model` calls are issued with no sleep between them;
every sleep in the trace is the fixed 30-second sleep. -/
theorem c7_amended_sleep_structure (folders keywords : List String) :
    callGaps (mainTraceActual folders keywords) =
      List.replicate (step3Chunks keywords).length [Event.sleep 30] ++
        [[], []] ∧
    (∀ e ∈ mainTraceActual folders keywords, ∀ n, e = Event.sleep n →
      n = 30) := by
  constructor
  · simp only [mainTraceActual, mainTrace, RUN_STEP2, RUN_STEP3, RUN_STEP4,
      RUN_STEP5, RUN_STEP6, if_true, if_false, List.nil_append,
      List.append_assoc]
    exact callGaps_codes_trace (step3Chunks keywords)
  · intro e he n hn
    subst hn
    have he' : Event.sleep n ∈
        ((step3Chunks keywords).map
          (fun c => [Event.callCodes c, Event.sleep 30])).flatten ++
        [Event.callThemes, Event.callConcepts, Event.callModel] := by
      simpa [mainTraceActual, mainTrace, RUN_STEP2, RUN_STEP3, RUN_STEP4,
        RUN_STEP5, RUN_STEP6] using he
    rcases List.mem_append.mp he' with h | h
    · obtain ⟨l, hl, hel⟩ := List.mem_flatten.mp h
      obtain ⟨c, -, rfl⟩ := List.mem_map.mp hl
      rcases List.mem_cons.mp hel with h1 | h1
      · simp at h1
      · rcases List.mem_cons.mp h1 with h2 | h2
        · injection h2
        · simp at h2
    · simp at h

/-! ## C3 — error handling in the extraction loops -/

/-- C3 counterexample: in the module-level extraction loop of
`workbook_extractor.py` there is no per-file handler, so an exception
while processing the first file aborts the loop: with two files where
the first raises, only the first file is ever attempted — refuting the
claim that an error in one file never aborts the per-file loop. -/
theorem c3_module_loop_aborts_counterexample :
    (moduleExtractionLoop
      (fun n : Nat => if n = 0 then Except.error "boom" else Except.ok ())
      [0, 1]).1 = [0] ∧
    ([0] : List Nat) ≠ [0, 1] :=
  ⟨rfl, by decide⟩

/-- C3 amended: the per-file `try/except` of
`ExcelExtractor.extract_all_files` attempts every file whatever errors
occur, and the per-image and per-chart-sheet handlers of
`workbook_extractor.py` skip only the failing item; but the
module-level per-file loop of `workbook_extractor.py` has no handler,
so an exception while processing one file aborts it (see the
counterexample). -/
theorem c3_amended_error_handling (processFile : α → Except ε Unit)
    (files : List α) (processImage : β → Except ε γ) (images : List β)
    (processSheet : σ → Except ε γ) (sheets : List σ) :
    (extract_all_files processFile files).map Prod.fst = files ∧
    imagesLoop processImage images =
      images.filterMap (fun i => exceptToOption (processImage i)) ∧
    chartSheetsLoop processSheet sheets =
      sheets.filterMap (fun s => exceptToOption (processSheet s)) := by
  refine ⟨?_, ?_, ?_⟩
  · induction files with
    | nil => rfl
    | cons f fs ih =>
      cases hp : processFile f <;>
        simp only [extract_all_files, List.map_cons, hp] at ih ⊢ <;>
        rw [ih]
  · induction images with
    | nil => rfl
    | cons i is ih =>
      cases hp : processImage i <;>
        simp [imagesLoop, List.filterMap_cons, hp, exceptToOption, ih]
  · induction sheets with
    | nil => rfl
    | cons s ss ih =>
      cases hp : processSheet s <;>
        simp [chartSheetsLoop, List.filterMap_cons, hp, exceptToOption, ih]

/-! ## C6 — `get_prompt` placeholder filling -/

theorem takeWhile_no_rbracket (suf : List Char) :
    ∀ key : List Char, ']' ∉ key →
      (key ++ ']' :: suf).takeWhile (fun x => x ≠ ']') = key := by
  intro key
  induction key with
  | nil => intro _; simp [List.takeWhile_cons]
  | cons k ks ih =>
    intro h
    have hk : k ≠ ']' := fun hkk => h (hkk ▸ List.mem_cons_self k ks)
    have hks : ']' ∉ ks := fun hm => h (List.mem_cons_of_mem k hm)
    rw [List.cons_append, List.takeWhile_cons,
      if_pos (decide_eq_true hk)]
    exact congrArg (List.cons k) (ih hks)

theorem fill_nil (details : List (String × String)) (fuel : Nat) :
    fillPlaceholders details fuel [] = [] := by
  cases fuel <;> rfl

/-- The result of `fillPlaceholders` does not depend on the fuel, as
long as the fuel covers the input length. -/
theorem fill_fuel_irrel (details : List (String × String)) :
    ∀ fuel₁ : Nat, ∀ fuel₂ : Nat, ∀ l : List Char,
      l.length ≤ fuel₁ → l.length ≤ fuel₂ →
      fillPlaceholders details fuel₁ l = fillPlaceholders details fuel₂ l := by
  intro fuel₁
  induction fuel₁ with
  | zero =>
    intro fuel₂ l h1 _
    have : l = [] := List.length_eq_zero.mp (Nat.le_zero.mp h1)
    subst this
    rw [fill_nil, fill_nil]
  | succ f₁ ih =>
    intro fuel₂ l h1 h2
    cases l with
    | nil => rw [fill_nil, fill_nil]
    | cons c cs =>
      cases fuel₂ with
      | zero => simp at h2
      | succ f₂ =>
        simp only [List.length_cons] at h1 h2
        simp only [fillPlaceholders]
        by_cases hc : c = '['
        · simp only [if_pos hc]
          by_cases hcond : cs.takeWhile (fun x => x ≠ ']') ≠ [] ∧
              (cs.takeWhile (fun x => x ≠ ']')).length < cs.length
          · simp only [if_pos hcond]
            congr 1
            exact ih f₂ _ (by simp only [List.length_drop]; omega)
              (by simp only [List.length_drop]; omega)
          · simp only [if_neg hcond]
            congr 1
            exact ih f₂ cs (by omega) (by omega)
        · simp only [if_neg hc]
          congr 1
          exact ih f₂ cs (by omega) (by omega)

/-- One placeholder step of the `re.sub` pass: a prefix without `[`,
then `[key]` with a non-empty key free of `]`, is rewritten to the
prefix, the key's replacement (its detail value when present, the
verbatim `[key]` otherwise), and the untouched continuation of the scan
on the suffix only — text introduced by the substitution is never
rescanned. -/
theorem fill_placeholder_step (details : List (String × String)) :
    ∀ pre : List Char, ∀ fuel : Nat, ∀ key suf : List Char,
      '[' ∉ pre → key ≠ [] → ']' ∉ key →
      (pre ++ '[' :: (key ++ ']' :: suf)).length ≤ fuel →
      fillPlaceholders details fuel (pre ++ '[' :: (key ++ ']' :: suf)) =
        pre ++
          ((match alistGet details (String.mk key) with
            | some v => v.data
            | none => '[' :: (key ++ [']'])) ++
            fillPlaceholders details suf.length suf) := by
  intro pre
  induction pre with
  | nil =>
    intro fuel key suf _ hkey hrb hlen
    cases fuel with
    | zero => simp at hlen
    | succ f =>
      simp only [List.nil_append] at hlen ⊢
      have hkeypos : 1 ≤ key.length := List.length_pos.mpr hkey
      simp only [List.length_cons, List.length_append] at hlen
      have hctnt : (key ++ ']' :: suf).takeWhile (fun x => x ≠ ']') = key :=
        takeWhile_no_rbracket suf key hrb
      have hcond : (key ++ ']' :: suf).takeWhile (fun x => x ≠ ']') ≠ [] ∧
          ((key ++ ']' :: suf).takeWhile
            (fun x => x ≠ ']')).length < (key ++ ']' :: suf).length := by
        rw [hctnt]
        refine ⟨hkey, ?_⟩
        simp only [List.length_append, List.length_cons]
        omega
      have hdrop : (key ++ ']' :: suf).drop (key.length + 1) = suf := by
        have h2 : (key ++ ']' :: suf).drop (key.length + 1) =
            ((key ++ ']' :: suf).drop key.length).drop 1 := by
          rw [List.drop_drop]
        rw [h2, List.drop_left key (']' :: suf)]
        rfl
      simp only [fillPlaceholders, if_pos rfl, if_pos hcond, hctnt, hdrop]
      rw [fill_fuel_irrel details f suf.length suf (by omega) (by omega)]
      have hlt2 : key.length < (key ++ ']' :: suf).length := by
        simp only [List.length_append, List.length_cons]
        omega
      rw [if_pos trivial]
      rw [if_pos (show key ≠ [] ∧ key.length < (key ++ ']' :: suf).length
        from ⟨hkey, hlt2⟩)]
  | cons p ps ih =>
    intro fuel key suf hpre hkey hrb hlen
    have hp : p ≠ '[' := fun hpp => hpre (hpp ▸ List.mem_cons_self p ps)
    have hps : '[' ∉ ps := fun hm => hpre (List.mem_cons_of_mem p hm)
    cases fuel with
    | zero => simp at hlen
    | succ f =>
      simp only [List.cons_append] at hlen ⊢
      simp only [List.length_cons] at hlen
      simp only [fillPlaceholders, if_neg hp]
      rw [ih f key suf hps hkey hrb (by omega)]

/-- Text without `[` passes through the substitution unchanged. -/
theorem fill_no_bracket (details : List (String × String)) :
    ∀ fuel : Nat, ∀ l : List Char, '[' ∉ l →
      fillPlaceholders details fuel l = l := by
  intro fuel
  induction fuel with
  | zero => intro l _; cases l <;> rfl
  | succ f ih =>
    intro l hl
    cases l with
    | nil => rfl
    | cons c cs =>
      have hc : c ≠ '[' := fun hcc => hl (hcc ▸ List.mem_cons_self c cs)
      have hcs : '[' ∉ cs := fun hm => hl (List.mem_cons_of_mem c hm)
      simp only [fillPlaceholders, if_neg hc]
      rw [ih cs hcs]

/-- C6: `get_prompt` looks the stage up in `prompts.yaml` and fills the
template in a single left-to-right pass: a placeholder `[key]` whose key
is in `prompt_details.yaml` becomes the key's value, one whose key is
absent stays verbatim as `[key]`, substituted text is never rescanned
(the scan continues on the suffix only), and a stage with no template
yields `Prompt not found.`. -/
theorem c6_get_prompt_filling (prompts details : List (String × String))
    (step stepMissing : String) (tpl : String) (pre key suf : List Char)
    (htpl : alistGet prompts step = some tpl)
    (hshape : tpl.data = pre ++ '[' :: (key ++ ']' :: suf))
    (hpre : '[' ∉ pre) (hkey : key ≠ []) (hrb : ']' ∉ key)
    (hmiss : alistGet prompts stepMissing = none) :
    (get_prompt prompts details step).data =
      pre ++
        ((match alistGet details (String.mk key) with
          | some v => v.data
          | none => '[' :: (key ++ [']'])) ++
          fillPlaceholders details suf.length suf) ∧
    get_prompt prompts details stepMissing = "Prompt not found." := by
  constructor
  · show (String.mk (fillPlaceholders details
        ((alistGet prompts step).getD "Prompt not found.").data.length
        ((alistGet prompts step).getD "Prompt not found.").data)).data = _
    rw [htpl]
    simp only [Option.getD_some]
    rw [hshape]
    exact fill_placeholder_step details pre
      (pre ++ '[' :: (key ++ ']' :: suf)).length key suf hpre hkey hrb
      (Nat.le_refl _)
  · show String.mk (fillPlaceholders details
        ((alistGet prompts stepMissing).getD "Prompt not found.").data.length
        ((alistGet prompts stepMissing).getD "Prompt not found.").data) = _
    rw [hmiss]
    simp only [Option.getD_none]
    rw [fill_no_bracket details _ _ (by decide)]

/-- Witness for C6 at a concrete prompts/details pair: the template
`"Analyse [data] x"` for stage `step2`, the detail `data ↦ D`, and the
missing stage `nope`. -/
theorem c6_get_prompt_filling_witness :
    (alistGet [("step2", "Analyse [data] x")] "step2" =
        some "Analyse [data] x") ∧
    (("Analyse [data] x" : String).data =
        "Analyse ".data ++ '[' :: ("data".data ++ ']' :: " x".data)) ∧
    ((get_prompt [("step2", "Analyse [data] x")] [("data", "D")]
        "step2").data =
      "Analyse ".data ++
        ((match alistGet [("data", "D")] (String.mk "data".data) with
          | some v => v.data
          | none => '[' :: ("data".data ++ [']'])) ++
          fillPlaceholders [("data", "D")] " x".data.length " x".data) ∧
     get_prompt [("step2", "Analyse [data] x")] [("data", "D")] "nope" =
       "Prompt not found.") :=
  ⟨by decide, by decide,
    c6_get_prompt_filling [("step2", "Analyse [data] x")] [("data", "D")]
      "step2" "nope" "Analyse [data] x" "Analyse ".data "data".data
      " x".data (by decide) (by decide) (by decide) (by decide) (by decide)
      (by decide)⟩

/-! ## Dict lemmas for the extractor proofs -/

theorem alistGet_delKey_self (m : List (String × β)) (k : String) :
    alistGet (delKey m k) k = none := by
  induction m with
  | nil => rfl
  | cons p ps ih =>
    obtain ⟨pk, pv⟩ := p
    by_cases h : pk = k
    · simp only [delKey, List.filter_cons]
      rw [if_neg (by simp [h])]
      simpa [delKey] using ih
    · simp only [delKey, List.filter_cons]
      rw [if_pos (by simp [h])]
      simp only [alistGet]
      rw [if_neg h]
      simpa [delKey] using ih

theorem alistGet_delKey_ne (m : List (String × β)) (k k' : String)
    (h : k' ≠ k) : alistGet (delKey m k) k' = alistGet m k' := by
  induction m with
  | nil => rfl
  | cons p ps ih =>
    obtain ⟨pk, pv⟩ := p
    by_cases hp : pk = k
    · have hp' : pk ≠ k' := fun hh => h (hh ▸ hp ▸ rfl)
      simp only [delKey, List.filter_cons]
      rw [if_neg (by simp [hp])]
      simp only [delKey] at ih
      rw [ih]
      simp only [alistGet]
      rw [if_neg hp']
    · simp only [delKey, List.filter_cons]
      rw [if_pos (by simp [hp])]
      simp only [alistGet]
      simp only [delKey] at ih
      rw [ih]

theorem hasKey_delKey_self (m : List (String × β)) (k : String) :
    hasKey (delKey m k) k = false := by
  simp [hasKey, alistGet_delKey_self]

theorem hasKey_delKey_of_false (m : List (String × β)) (k k' : String)
    (h : hasKey m k = false) : hasKey (delKey m k') k = false := by
  by_cases hk : k = k'
  · subst hk
    exact hasKey_delKey_self m k
  · simpa [hasKey, alistGet_delKey_ne m k' k hk] using h

theorem hasKey_foldl_delKey_of_false (ks : List String) :
    ∀ m : List (String × β), ∀ k, hasKey m k = false →
      hasKey (ks.foldl delKey m) k = false := by
  induction ks with
  | nil => intro m k h; exact h
  | cons a ks ih =>
    intro m k h
    exact ih (delKey m a) k (hasKey_delKey_of_false m k a h)

theorem hasKey_foldl_delKey_self (ks : List String) :
    ∀ m : List (String × β), ∀ k, k ∈ ks →
      hasKey (ks.foldl delKey m) k = false := by
  induction ks with
  | nil => intro m k h; exact absurd h (List.not_mem_nil k)
  | cons a ks ih =>
    intro m k h
    rcases List.mem_cons.mp h with rfl | h
    · exact hasKey_foldl_delKey_of_false ks (delKey m k) k
        (hasKey_delKey_self m k)
    · exact ih (delKey m a) k h

/-! ## C5 — `remove_formatting` -/

theorem cleanCell_no_Format (cell : Cell) :
    hasKey (cleanCell cell) "Format" = false :=
  hasKey_foldl_delKey_of_false formatting_keys (delKey cell "Format")
    "Format" (hasKey_delKey_self cell "Format")

theorem cleanCell_no_fmt_key (cell : Cell) (k : String)
    (hk : k ∈ formatting_keys) : hasKey (cleanCell cell) k = false :=
  hasKey_foldl_delKey_self formatting_keys (delKey cell "Format") k hk

/-- C5: after `remove_formatting`, the document's `meta` entry and every
worksheet's `worksheetProperties` entry are gone, every remaining cell
of every worksheet has a `value` entry (so a cell that held only
formatting is removed entirely), and no remaining cell has a `Format`,
`style`, `font`, `fill`, `border`, `alignment`, `number_format` or
`protection` entry. -/
theorem c5_remove_formatting (sj : SheetJsonDoc) :
    (remove_formatting sj).meta = none ∧
    ∀ p ∈ (remove_formatting sj).worksheets,
      p.2.worksheetProperties = none ∧
      ∀ cs, p.2.cells = some cs → ∀ q ∈ cs,
        hasKey q.2 "value" = true ∧
        hasKey q.2 "Format" = false ∧
        ∀ k ∈ formatting_keys, hasKey q.2 k = false := by
  refine ⟨rfl, ?_⟩
  intro p hp
  simp only [remove_formatting] at hp
  obtain ⟨p₀, hp₀, rfl⟩ := List.mem_map.mp hp
  refine ⟨rfl, ?_⟩
  intro cs hcs q hq
  have hcells : (processWorksheet p₀.2).cells =
      (p₀.2.cells).map (fun (cs : List (String × Cell)) =>
        (cs.map (fun (p : String × Cell) => (p.1, cleanCell p.2))).filter
          (fun p => ¬ (p.2.isEmpty ∨ ¬ hasKey p.2 "value"))) := rfl
  rw [hcells] at hcs
  obtain ⟨cs₀, hcs₀, rfl⟩ := Option.map_eq_some'.mp hcs
  obtain ⟨hqmem, hqkeep⟩ := List.mem_filter.mp hq
  obtain ⟨q₀, hq₀, rfl⟩ := List.mem_map.mp hqmem
  refine ⟨?_, cleanCell_no_Format q₀.2, fun k hk => cleanCell_no_fmt_key q₀.2 k hk⟩
  have hkeep := of_decide_eq_true hqkeep
  exact not_not.mp (not_or.mp hkeep).2

/-- Witness for C5 at a concrete two-cell document: cell `A1` holds a
value and a font, cell `B2` holds only formatting. -/
theorem c5_remove_formatting_witness :
    (remove_formatting
      ⟨some (JVal.str "m"),
        [("S", ⟨some (JVal.str "p"),
          some [("A1", [("value", JVal.num 1), ("font", JVal.str "f")]),
                ("B2", [("font", JVal.str "g")])],
          none, none, none, none⟩)]⟩).meta = none ∧
    ∀ p ∈ (remove_formatting
      ⟨some (JVal.str "m"),
        [("S", ⟨some (JVal.str "p"),
          some [("A1", [("value", JVal.num 1), ("font", JVal.str "f")]),
                ("B2", [("font", JVal.str "g")])],
          none, none, none, none⟩)]⟩).worksheets,
      p.2.worksheetProperties = none ∧
      ∀ cs, p.2.cells = some cs → ∀ q ∈ cs,
        hasKey q.2 "value" = true ∧
        hasKey q.2 "Format" = false ∧
        ∀ k ∈ formatting_keys, hasKey q.2 k = false :=
  c5_remove_formatting
    ⟨some (JVal.str "m"),
      [("S", ⟨some (JVal.str "p"),
        some [("A1", [("value", JVal.num 1), ("font", JVal.str "f")]),
              ("B2", [("font", JVal.str "g")])],
        none, none, none, none⟩)]⟩

/-! ## `setKey` lemmas -/

theorem alistGet_map_replace_self (m : List (String × β)) (k : String)
    (v : β) (h : hasKey m k = true) :
    alistGet (m.map (fun p => if p.1 = k then (k, v) else p)) k = some v := by
  induction m with
  | nil => simp [hasKey, alistGet] at h
  | cons p ps ih =>
    obtain ⟨pk, pv⟩ := p
    by_cases hp : pk = k
    · simp only [List.map_cons]
      rw [if_pos hp]
      simp only [alistGet]
      rw [if_pos trivial]
    · have h' : hasKey ps k = true := by
        simpa [hasKey, alistGet, hp] using h
      simp only [List.map_cons]
      rw [if_neg hp]
      simp only [alistGet]
      rw [if_neg hp]
      exact ih h'

theorem alistGet_map_replace_ne (m : List (String × β)) (k k' : String)
    (v : β) (h : k' ≠ k) :
    alistGet (m.map (fun p => if p.1 = k then (k, v) else p)) k' =
      alistGet m k' := by
  induction m with
  | nil => rfl
  | cons p ps ih =>
    obtain ⟨pk, pv⟩ := p
    by_cases hp : pk = k
    · have h1 : ¬ k = k' := fun hh => h hh.symm
      have h2 : ¬ pk = k' := fun hh => h1 (hp ▸ hh)
      simp only [List.map_cons]
      rw [if_pos hp]
      simp only [alistGet]
      rw [if_neg h1, if_neg h2]
      exact ih
    · by_cases hpk : pk = k'
      · simp only [List.map_cons]
        rw [if_neg hp]
        simp only [alistGet]
        rw [if_pos hpk, if_pos hpk]
      · simp only [List.map_cons]
        rw [if_neg hp]
        simp only [alistGet]
        rw [if_neg hpk, if_neg hpk]
        exact ih

theorem alistGet_append_self (m : List (String × β)) (k : String) (v : β)
    (h : hasKey m k = false) : alistGet (m ++ [(k, v)]) k = some v := by
  induction m with
  | nil =>
    simp only [List.nil_append, alistGet]
    rw [if_pos trivial]
  | cons p ps ih =>
    obtain ⟨pk, pv⟩ := p
    have hp : ¬ pk = k := by
      intro hh
      simp [hasKey, alistGet, hh] at h
    have h' : hasKey ps k = false := by
      simpa [hasKey, alistGet, hp] using h
    simp only [List.cons_append, alistGet]
    rw [if_neg hp]
    exact ih h'

theorem alistGet_append_ne (m : List (String × β)) (k k' : String) (v : β)
    (h : k' ≠ k) : alistGet (m ++ [(k, v)]) k' = alistGet m k' := by
  induction m with
  | nil =>
    simp only [List.nil_append, alistGet]
    rw [if_neg (show ¬ k = k' from fun hh => h hh.symm)]
  | cons p ps ih =>
    obtain ⟨pk, pv⟩ := p
    by_cases hpk : pk = k'
    · simp only [List.cons_append, alistGet]
      rw [if_pos hpk, if_pos hpk]
    · simp only [List.cons_append, alistGet]
      rw [if_neg hpk, if_neg hpk]
      exact ih

theorem alistGet_setKey_self (m : List (String × β)) (k : String) (v : β) :
    alistGet (setKey m k v) k = some v := by
  unfold setKey
  by_cases h : hasKey m k = true
  · rw [if_pos h]
    exact alistGet_map_replace_self m k v h
  · rw [if_neg h]
    exact alistGet_append_self m k v (Bool.not_eq_true _ ▸ h)

theorem alistGet_setKey_ne (m : List (String × β)) (k k' : String) (v : β)
    (h : k' ≠ k) : alistGet (setKey m k v) k' = alistGet m k' := by
  unfold setKey
  by_cases hh : hasKey m k = true
  · rw [if_pos hh]
    exact alistGet_map_replace_ne m k k' v h
  · rw [if_neg hh]
    exact alistGet_append_ne m k k' v h

theorem alistGet_mem (m : List (String × β)) (k : String) (v : β)
    (h : alistGet m k = some v) : (k, v) ∈ m := by
  induction m with
  | nil => simp [alistGet] at h
  | cons p ps ih =>
    obtain ⟨pk, pv⟩ := p
    by_cases hp : pk = k
    · subst hp
      simp only [alistGet, if_pos rfl] at h
      obtain rfl := Option.some.inj h
      exact List.mem_cons_self _ _
    · simp only [alistGet, if_neg hp] at h
      exact List.mem_cons_of_mem _ (ih h)

/-! ## C10 — hyperlink injection -/

theorem addSheetHyperlinks_summary (hs : List (String × String)) :
    ∀ ws : Worksheet,
      (addSheetHyperlinks ws hs).hyperlinks_summary =
        ws.hyperlinks_summary := by
  induction hs with
  | nil => intro ws; rfl
  | cons p hs ih =>
    intro ws
    exact ih (addHyperlinkToCell ws p)

theorem addHyperlinkToCell_get_ne (ws : Worksheet) (p : String × String)
    (ref : String) (h : ref ≠ p.1) :
    alistGet ((addHyperlinkToCell ws p).cells.getD []) ref =
      alistGet (ws.cells.getD []) ref := by
  show alistGet (setKey (ws.cells.getD []) p.1 _) ref = _
  exact alistGet_setKey_ne _ _ _ _ h

theorem addSheetHyperlinks_get_not_mem (hs : List (String × String)) :
    ∀ ws : Worksheet, ∀ ref, ref ∉ hs.map Prod.fst →
      alistGet ((addSheetHyperlinks ws hs).cells.getD []) ref =
        alistGet (ws.cells.getD []) ref := by
  induction hs with
  | nil => intro ws ref _; rfl
  | cons p hs ih =>
    intro ws ref h
    have h1 : ref ≠ p.1 := fun hh =>
      h (by rw [List.map_cons, hh]; exact List.mem_cons_self _ _)
    have h2 : ref ∉ hs.map Prod.fst := fun hm =>
      h (by rw [List.map_cons]; exact List.mem_cons_of_mem _ hm)
    show alistGet ((addSheetHyperlinks (addHyperlinkToCell ws p) hs).cells.getD
      []) ref = _
    rw [ih (addHyperlinkToCell ws p) ref h2]
    exact addHyperlinkToCell_get_ne ws p ref h1

theorem addSheetHyperlinks_get_mem (hs : List (String × String)) :
    ∀ ws : Worksheet, ∀ ref, ref ∈ hs.map Prod.fst →
      (hs.map Prod.fst).Nodup →
      ∃ cell, alistGet ((addSheetHyperlinks ws hs).cells.getD []) ref =
        some cell ∧ hasKey cell "hyperlink" = true := by
  induction hs with
  | nil => intro ws ref h _; exact absurd h (List.not_mem_nil ref)
  | cons p hs ih =>
    intro ws ref h hnd
    rw [List.map_cons] at h hnd
    have hnd' := List.nodup_cons.mp hnd
    rcases List.mem_cons.mp h with rfl | hmem
    · refine ⟨setKey ((alistGet (ws.cells.getD []) p.1).getD []) "hyperlink"
        (JVal.obj [("target", JVal.str p.2)]), ?_, ?_⟩
      · show alistGet ((addSheetHyperlinks (addHyperlinkToCell ws p)
          hs).cells.getD []) p.1 = _
        rw [addSheetHyperlinks_get_not_mem hs (addHyperlinkToCell ws p) p.1
          hnd'.1]
        show alistGet (setKey (ws.cells.getD []) p.1 _) p.1 = _
        exact alistGet_setKey_self _ _ _
      · show (alistGet (setKey _ "hyperlink" _) "hyperlink").isSome = true
        rw [alistGet_setKey_self]
        rfl
    · exact ih (addHyperlinkToCell ws p) ref hmem hnd'.2

theorem sheetHyperlinks_eq_nil_iff (s : WbSheet) :
    sheetHyperlinks s = [] ↔ ∀ c ∈ s.cells, c.hyperlink = none := by
  rw [sheetHyperlinks, List.filterMap_eq_nil_iff]
  constructor
  · intro h c hc
    exact Option.map_eq_none'.mp (h c hc)
  · intro h c hc
    exact Option.map_eq_none'.mpr (h c hc)

theorem sheetHyperlinks_refs_sublist (cells : List WbCell) :
    ((cells.filterMap
        (fun c => c.hyperlink.map (fun t => (c.coordinate, t)))).map
      Prod.fst).Sublist (cells.map WbCell.coordinate) := by
  induction cells with
  | nil => simp
  | cons c cs ih =>
    cases hc : c.hyperlink with
    | none =>
      simp only [List.filterMap_cons, hc, Option.map_none', List.map_cons]
      exact ih.cons _
    | some t =>
      simp only [List.filterMap_cons, hc, Option.map_some', List.map_cons]
      exact ih.cons₂ _

theorem sheetHyperlinks_refs_nodup (s : WbSheet)
    (h : (s.cells.map WbCell.coordinate).Nodup) :
    ((sheetHyperlinks s).map Prod.fst).Nodup :=
  (sheetHyperlinks_refs_sublist s.cells).nodup h

theorem extract_get_some (wb : List WbSheet) (name : String)
    (hs : List (String × String)) :
    alistGet (extract_hyperlinks_from_excel wb) name = some hs →
    ∃ s, s ∈ wb ∧ s.name = name ∧ hs = sheetHyperlinks s ∧ hs ≠ [] := by
  induction wb with
  | nil => intro h; simp [extract_hyperlinks_from_excel, alistGet] at h
  | cons s rest ih =>
    intro h
    unfold extract_hyperlinks_from_excel at h ih
    rw [List.filterMap_cons] at h
    by_cases hemp : (sheetHyperlinks s).isEmpty = true
    · rw [if_pos hemp] at h
      obtain ⟨s', hmem, hname, hseq, hne⟩ := ih h
      exact ⟨s', List.mem_cons_of_mem s hmem, hname, hseq, hne⟩
    · rw [if_neg hemp] at h
      simp only [alistGet] at h
      by_cases hn : s.name = name
      · rw [if_pos hn] at h
        refine ⟨s, List.mem_cons_self s rest, hn, (Option.some.inj h).symm,
          ?_⟩
        rw [← Option.some.inj h]
        intro hnil
        exact hemp (by rw [hnil]; rfl)
      · rw [if_neg hn] at h
        obtain ⟨s', hmem, hname, hseq, hne⟩ := ih h
        exact ⟨s', List.mem_cons_of_mem s hmem, hname, hseq, hne⟩

theorem extract_get_none (wb : List WbSheet) (name : String) :
    alistGet (extract_hyperlinks_from_excel wb) name = none →
    ∀ s ∈ wb, s.name = name → sheetHyperlinks s = [] := by
  induction wb with
  | nil => intro _ s hmem; exact absurd hmem (List.not_mem_nil s)
  | cons s rest ih =>
    intro h s' hmem hname
    unfold extract_hyperlinks_from_excel at h ih
    rw [List.filterMap_cons] at h
    by_cases hemp : (sheetHyperlinks s).isEmpty = true
    · rw [if_pos hemp] at h
      rcases List.mem_cons.mp hmem with rfl | hmem'
      · exact List.isEmpty_iff.mp hemp
      · exact ih h s' hmem' hname
    · rw [if_neg hemp] at h
      simp only [alistGet] at h
      by_cases hn : s.name = name
      · rw [if_pos hn] at h
        cases h
      · rw [if_neg hn] at h
        rcases List.mem_cons.mp hmem with rfl | hmem'
        · exact absurd hname hn
        · exact ih h s' hmem' hname

/-- C10: given a sheetjson with no pre-existing `hyperlinks_summary`
entries and no pre-existing per-cell `hyperlink` entries (as produced by
`remove_formatting`), and a workbook whose per-sheet cell coordinates
are distinct: after `add_hyperlinks_to_sheetjson`, a worksheet carries a
`hyperlinks_summary` iff the workbook has at least one hyperlinked cell
on a sheet of that name; the summary's count equals the length of its
`cells_with_hyperlinks` list, that list is duplicate-free and lists
exactly the cells holding a `hyperlink` entry (so count = number of
cells to which a hyperlink was added); and a worksheet with no
hyperlinks is left entirely unchanged. -/
theorem c10_add_hyperlinks (sj : SheetJsonDoc) (wb : List WbSheet)
    (hsum : ∀ p ∈ sj.worksheets, p.2.hyperlinks_summary = none)
    (hcoord : ∀ s ∈ wb, (s.cells.map WbCell.coordinate).Nodup)
    (hnoh : ∀ p ∈ sj.worksheets, ∀ cs, p.2.cells = some cs →
      ∀ q ∈ cs, hasKey q.2 "hyperlink" = false) :
    ∀ i p p', sj.worksheets.get? i = some p →
      (add_hyperlinks_to_sheetjson sj wb).worksheets.get? i = some p' →
      p'.1 = p.1 ∧
      ((p'.2.hyperlinks_summary ≠ none) ↔
        ∃ s ∈ wb, s.name = p.1 ∧ ∃ c ∈ s.cells, c.hyperlink ≠ none) ∧
      (∀ n l, p'.2.hyperlinks_summary = some (n, l) →
        n = l.length ∧ l.Nodup ∧
        ∀ ref, (∃ cell, alistGet (p'.2.cells.getD []) ref = some cell ∧
          hasKey cell "hyperlink" = true) ↔ ref ∈ l) ∧
      ((¬ ∃ s ∈ wb, s.name = p.1 ∧ ∃ c ∈ s.cells, c.hyperlink ≠ none) →
        p' = p) := by
  intro i p p' hp hp'
  have hpmem : p ∈ sj.worksheets := List.get?_mem hp
  have hmap : (add_hyperlinks_to_sheetjson sj wb).worksheets =
      sj.worksheets.map (fun p =>
        match alistGet (extract_hyperlinks_from_excel wb) p.1 with
        | none => p
        | some hs =>
          (p.1, { addSheetHyperlinks p.2 hs with
                  hyperlinks_summary :=
                    some (hs.length, hs.map Prod.fst) })) := rfl
  rw [hmap, List.get?_map, hp] at hp'
  simp only [Option.map_some'] at hp'
  obtain rfl := Option.some.inj hp'
  cases ha : alistGet (extract_hyperlinks_from_excel wb) p.1 with
  | none =>
    simp only [ha]
    refine ⟨by trivial, ?_, ?_, by intro _; trivial⟩
    · rw [hsum p hpmem]
      constructor
      · intro hcon
        exact absurd rfl hcon
      · rintro ⟨s, hsmem, hsname, c, hcmem, hcne⟩
        exact absurd ((sheetHyperlinks_eq_nil_iff s).mp
          (extract_get_none wb p.1 ha s hsmem hsname) c hcmem) hcne
    · intro n l hnl
      rw [hsum p hpmem] at hnl
      cases hnl
  | some hs =>
    simp only [ha]
    obtain ⟨s, hsmem, hsname, hseq, hsne⟩ := extract_get_some wb p.1 hs ha
    have hrefs_nodup : (hs.map Prod.fst).Nodup := by
      rw [hseq]
      exact sheetHyperlinks_refs_nodup s (hcoord s hsmem)
    have hex : ∃ s ∈ wb, s.name = p.1 ∧ ∃ c ∈ s.cells,
        c.hyperlink ≠ none := by
      have hnall : ¬ ∀ c ∈ s.cells, c.hyperlink = none := fun hall =>
        hsne (by rw [hseq]; exact (sheetHyperlinks_eq_nil_iff s).mpr hall)
      push_neg at hnall
      obtain ⟨c, hcmem, hcne⟩ := hnall
      exact ⟨s, hsmem, hsname, c, hcmem, hcne⟩
    refine ⟨by trivial, ⟨fun _ => hex, fun _ => ?_⟩, ?_,
      fun hno => absurd hex hno⟩
    · show some (hs.length, hs.map Prod.fst) ≠ none
      exact Option.some_ne_none _
    · intro n l hnl
      have hnl' : some (hs.length, hs.map Prod.fst) = some (n, l) := hnl
      have hpair := Option.some.inj hnl'
      rw [Prod.ext_iff] at hpair
      obtain ⟨hn, hl⟩ := hpair
      subst hn
      subst hl
      refine ⟨(List.length_map hs Prod.fst).symm, hrefs_nodup, ?_⟩
      intro ref
      constructor
      · rintro ⟨cell, hget, hhk⟩
        by_contra href
        have hget' : alistGet ((addSheetHyperlinks p.2 hs).cells.getD [])
            ref = some cell := hget
        rw [addSheetHyperlinks_get_not_mem hs p.2 ref href] at hget'
        cases hc : p.2.cells with
        | none =>
          rw [hc] at hget'
          simp [alistGet] at hget'
        | some cs =>
          rw [hc] at hget'
          simp only [Option.getD_some] at hget'
          have hmem := alistGet_mem cs ref cell hget'
          have hfalse : hasKey cell "hyperlink" = false :=
            hnoh p hpmem cs hc (ref, cell) hmem
          rw [hfalse] at hhk
          cases hhk
      · intro href
        obtain ⟨cell, hget, hhk⟩ :=
          addSheetHyperlinks_get_mem hs p.2 ref href hrefs_nodup
        exact ⟨cell, hget, hhk⟩

/-- Witness for C10: `sampleDoc` against `sampleWb`, at worksheet
index 0, where the resulting worksheet gains the cell `A1` with a
`hyperlink` entry and the summary `(1, ["A1"])`. -/
theorem c10_add_hyperlinks_witness :
    (("S", (⟨none,
        some [("A1", [("hyperlink", JVal.obj [("target", JVal.str "u")])])],
        none, none, none, some (1, ["A1"])⟩ : Worksheet)) :
      String × Worksheet).1 =
      (("S", (⟨none, none, none, none, none, none⟩ : Worksheet)) :
        String × Worksheet).1 ∧
    (((("S", (⟨none,
        some [("A1", [("hyperlink", JVal.obj [("target", JVal.str "u")])])],
        none, none, none, some (1, ["A1"])⟩ : Worksheet)) :
      String × Worksheet).2.hyperlinks_summary ≠ none) ↔
      ∃ s ∈ sampleWb,
        s.name = (("S", (⟨none, none, none, none, none, none⟩ : Worksheet)) :
          String × Worksheet).1 ∧
        ∃ c ∈ s.cells, c.hyperlink ≠ none) ∧
    (∀ n l,
      (("S", (⟨none,
          some [("A1", [("hyperlink", JVal.obj [("target", JVal.str "u")])])],
          none, none, none, some (1, ["A1"])⟩ : Worksheet)) :
        String × Worksheet).2.hyperlinks_summary = some (n, l) →
      n = l.length ∧ l.Nodup ∧
      ∀ ref, (∃ cell,
        alistGet ((("S", (⟨none,
          some [("A1", [("hyperlink", JVal.obj [("target", JVal.str "u")])])],
          none, none, none, some (1, ["A1"])⟩ : Worksheet)) :
          String × Worksheet).2.cells.getD []) ref = some cell ∧
        hasKey cell "hyperlink" = true) ↔ ref ∈ l) ∧
    ((¬ ∃ s ∈ sampleWb,
        s.name = (("S", (⟨none, none, none, none, none, none⟩ : Worksheet)) :
          String × Worksheet).1 ∧
        ∃ c ∈ s.cells, c.hyperlink ≠ none) →
      (("S", (⟨none,
          some [("A1", [("hyperlink", JVal.obj [("target", JVal.str "u")])])],
          none, none, none, some (1, ["A1"])⟩ : Worksheet)) :
        String × Worksheet) =
        ("S", (⟨none, none, none, none, none, none⟩ : Worksheet))) :=
  c10_add_hyperlinks sampleDoc sampleWb
    (by decide)
    (by decide)
    (by
      rintro p hp cs hcs q hq
      rcases List.mem_cons.mp hp with rfl | hp'
      · exact Option.noConfusion hcs
      · exact absurd hp' (List.not_mem_nil p))
    0
    ("S", (⟨none, none, none, none, none, none⟩ : Worksheet))
    ("S", (⟨none,
      some [("A1", [("hyperlink", JVal.obj [("target", JVal.str "u")])])],
      none, none, none, some (1, ["A1"])⟩ : Worksheet))
    rfl
    rfl

end SpreadsheetTaxo
